import Mathlib

/-!
Verification of the AVL search-tree code in this repository.

Two variants are embedded:
* `Generic` — the generic return-new-root variant (`generictree.go`): each node
  caches its subtree height, `Insert` recomputes heights on the way back up and
  returns the (possibly rotated) subtree root.
* `BVar` — the string-keyed parent-pointer variant (`balancedtree.go`): each
  node caches a balance factor, `Insert` reports height growth to the caller
  and rotations rewire the parent's child slot.  In the embedding the
  parent-slot mutation is rendered by returning the new subtree root, and the
  height-growth report by a boolean paired with it.

Go mutates nodes in place; every node owns its subtrees exclusively, so the
mutation is faithfully rendered by pure structural rebuilding.  Where the Go
code would dereference a nil pointer (rotations on a missing child), the
embedding returns the node unchanged; these cases are unreachable from states
the program can actually build.
-/

set_option linter.unusedVariables false
set_option linter.unusedSectionVars false
set_option linter.unreachableTactic false
set_option linter.unusedTactic false

namespace Generic

/-- The `Node[Value, Data]` struct of `generictree.go`: value, data, left and
right subtree, and the cached `height` field (a Go `int`). `nil` is the nil
pointer. -/
inductive Node (V : Type) (D : Type) where
| nil : Node V D
| node (value : V) (data : D) (left : Node V D) (right : Node V D) (height : Int) : Node V D
deriving DecidableEq

variable {V D : Type} [LinearOrder V]

/-- Go: `func (n *Node) Height() int` — 0 for nil, else the cached field. -/
def Node.Height : Node V D → Int
| .nil => 0
| .node _ _ _ _ h => h

/-- The Go field access `n.Left`; nil is mapped to nil (the Go code only reads
`.Left` on non-nil nodes). -/
def Node.Left : Node V D → Node V D
| .nil => .nil
| .node _ _ l _ _ => l

/-- The Go field access `n.Right`; nil is mapped to nil. -/
def Node.Right : Node V D → Node V D
| .nil => .nil
| .node _ _ _ r _ => r

/-- Go: `func (n *Node) Bal() int { return n.Right.Height() - n.Left.Height() }`.
The Go method is only ever invoked on non-nil nodes. -/
def Node.Bal (n : Node V D) : Int := n.Right.Height - n.Left.Height

/-- Go `rotateLeft`: promote the right child, recompute both heights.  The
fallback arm covers the nil-right-child case on which the Go code would fault;
it is never reached from program states. -/
def Node.rotateLeft : Node V D → Node V D
| .node v d l (.node rv rd rl rr rh) _ =>
    let n' : Node V D := .node v d l rl (max (Node.Height l) (Node.Height rl) + 1)
    .node rv rd n' rr (max n'.Height (Node.Height rr) + 1)
| n => n

/-- Go `rotateRight`, mirror of `rotateLeft`. -/
def Node.rotateRight : Node V D → Node V D
| .node v d (.node lv ld ll lr lh) r _ =>
    let n' : Node V D := .node v d lr r (max (Node.Height lr) (Node.Height r) + 1)
    .node lv ld ll n' (max (Node.Height ll) n'.Height + 1)
| n => n

/-- Go `rotateRightLeft`: rotate the right child right, rotate the node left,
recompute the (new) root height once more. -/
def Node.rotateRightLeft : Node V D → Node V D
| .node v d l r h =>
    match (Node.node v d l r.rotateRight h).rotateLeft with
    | .node v2 d2 l2 r2 _ => .node v2 d2 l2 r2 (max l2.Height r2.Height + 1)
    | .nil => .nil
| .nil => .nil

/-- Go `rotateLeftRight`: rotate the left child left, rotate the node right,
recompute the (new) root height once more. -/
def Node.rotateLeftRight : Node V D → Node V D
| .node v d l r h =>
    match (Node.node v d l.rotateLeft r h).rotateRight with
    | .node v2 d2 l2 r2 _ => .node v2 d2 l2 r2 (max l2.Height r2.Height + 1)
    | .nil => .nil
| .nil => .nil

/-- Go `rebalance`: the four-case dispatch switch; if no case matches the node
is returned unchanged. -/
def Node.rebalance (n : Node V D) : Node V D :=
  if n.Bal < -1 ∧ n.Left.Bal = -1 then n.rotateRight
  else if n.Bal > 1 ∧ n.Right.Bal = 1 then n.rotateLeft
  else if n.Bal < -1 ∧ n.Left.Bal = 1 then n.rotateLeftRight
  else if n.Bal > 1 ∧ n.Right.Bal = -1 then n.rotateRightLeft
  else n

/-- Go `Node.Insert`: create a leaf in the empty case, overwrite data on an
equal key, otherwise recurse, recompute the height and rebalance. -/
def Node.Insert : Node V D → V → D → Node V D
| .nil, value, data => .node value data .nil .nil 1
| .node v d l r h, value, data =>
  if v = value then .node v data l r h
  else if value < v then
    let l' := Node.Insert l value data
    (Node.node v d l' r (max l'.Height r.Height + 1)).rebalance
  else
    let r' := Node.Insert r value data
    (Node.node v d l r' (max l.Height r'.Height + 1)).rebalance

/-- Go `Node.Find`: zero value (`default`) with `false` on the empty subtree,
else compare and recurse. -/
def Node.Find [Inhabited D] : Node V D → V → D × Bool
| .nil, _ => (default, false)
| .node v d l r _, s =>
  if s = v then (d, true)
  else if s < v then l.Find s
  else r.Find s

/-- The `Tree[Value, Data]` struct of `generictree.go`: a handle holding the
root node. -/
structure Tree (V D : Type) where
  Root : Node V D

/-- Go `Tree.rebalance`: no-op on an empty tree, else replace the root by its
rebalanced form. -/
def Tree.rebalance (t : Tree V D) : Tree V D :=
  match t.Root with
  | .nil => t
  | root => ⟨root.rebalance⟩

/-- Go `Tree.Insert`: delegate to the node-level insert, reassign the root,
then the defensive recheck of the root balance. -/
def Tree.Insert (t : Tree V D) (value : V) (data : D) : Tree V D :=
  let t' : Tree V D := ⟨t.Root.Insert value data⟩
  if t'.Root.Bal < -1 ∨ t'.Root.Bal > 1 then t'.rebalance else t'

/-- Go `Tree.Find`: zero value with `false` on the empty tree, else delegate. -/
def Tree.Find [Inhabited D] (t : Tree V D) (s : V) : D × Bool :=
  match t.Root with
  | .nil => (default, false)
  | root => root.Find s

/-- Go `Tree.Traverse`: in-order traversal from an explicit start node calling
the visitor on every node.  The visitor's side effect is embedded as explicit
state threading; the handle `t` is only the receiver of the recursive calls. -/
def Tree.Traverse {S : Type} (t : Tree V D) : Node V D → (Node V D → S → S) → S → S
| .nil, _, s => s
| .node v d l r h, f, s =>
    let s1 := t.Traverse l f s
    let s2 := f (.node v d l r h) s1
    t.Traverse r f s2

/-- Inserting a list of key/data pairs, in order, into an initially empty
tree through `Tree.Insert`. -/
def build (ops : List (V × D)) : Tree V D :=
  ops.foldl (fun t p => t.Insert p.1 p.2) ⟨Node.nil⟩

/-- Specification-side: the true height of a subtree, recomputed rather than
read from the cached field. -/
def Node.realHeight : Node V D → Int
| .nil => 0
| .node _ _ l r _ => max l.realHeight r.realHeight + 1

/-- Specification-side: in-order list of keys. -/
def Node.keys : Node V D → List V
| .nil => []
| .node v _ l r _ => l.keys ++ v :: r.keys

/-- Specification-side: in-order list of key/data pairs. -/
def Node.pairs : Node V D → List (V × D)
| .nil => []
| .node v d l r _ => l.pairs ++ (v, d) :: r.pairs

/-- Specification-side: in-order list of the (sub)nodes themselves. -/
def Node.inorderNodes : Node V D → List (Node V D)
| .nil => []
| .node v d l r h => Node.inorderNodes l ++ Node.node v d l r h :: Node.inorderNodes r

/-- Every cached `height` field equals the recomputed height. -/
def Node.heightsOk : Node V D → Bool
| .nil => true
| .node _ _ l r h => l.heightsOk && r.heightsOk && decide (h = max l.realHeight r.realHeight + 1)

/-- The AVL shape invariant: at every node the true heights of the two
subtrees differ by at most one. -/
def Node.balanced : Node V D → Bool
| .nil => true
| .node _ _ l r _ =>
    l.balanced && r.balanced &&
    decide (-1 ≤ r.realHeight - l.realHeight ∧ r.realHeight - l.realHeight ≤ 1)

/-- The binary-search-tree invariant: keys on the left are strictly below the
node key, keys on the right strictly above, recursively. -/
def Node.bst : Node V D → Bool
| .nil => true
| .node v _ l r _ =>
    l.keys.all (fun x => decide (x < v)) && r.keys.all (fun x => decide (v < x)) &&
    l.bst && r.bst

/-- Forget the data payload: what remains is the shape, the keys and the cached
heights — everything `Insert` on a duplicate key must leave untouched. -/
def Node.eraseData : Node V D → Node V Unit
| .nil => .nil
| .node v _ l r h => .node v () l.eraseData r.eraseData h

/-- The single-key list of the node handed to a traversal visitor. -/
def Node.keyList : Node V D → List V
| .nil => []
| .node v _ _ _ _ => [v]

/-- The key sequence a traversal starting at the root shows its visitor:
Go `tree.Traverse(tree.Root, func(n *Node){ ...n.Value... })`. -/
def Tree.traverseKeys (t : Tree V D) : List V :=
  t.Traverse t.Root (fun nd acc => acc ++ nd.keyList) []

/-- Go `Insert` on a key already present, expressed structurally: replace the
data payload at the matching node and change nothing else. -/
def Node.overwrite : Node V D → V → D → Node V D
| .nil, _, _ => .nil
| .node v d l r h, value, data =>
  if v = value then .node v data l r h
  else if value < v then .node v d (Node.overwrite l value data) r h
  else .node v d l (Node.overwrite r value data) h

end Generic

namespace BVar

/-- The `Node` struct of `balancedtree.go`: string value and data, children,
and the cached balance-factor field `bal`. -/
inductive Node where
| nil : Node
| node (value : String) (data : String) (left : Node) (right : Node) (bal : Int) : Node
deriving DecidableEq

/-- The Go field access `n.Left`; nil is mapped to nil. -/
def Node.Left : Node → Node
| .nil => .nil
| .node _ _ l _ _ => l

/-- The Go field access `n.Right`; nil is mapped to nil. -/
def Node.Right : Node → Node
| .nil => .nil
| .node _ _ _ r _ => r

/-- The Go field access `n.bal`; the code only reads it on non-nil nodes. -/
def Node.bal : Node → Int
| .nil => 0
| .node _ _ _ _ b => b

/-- Overwrite the `bal` field of a node. -/
def Node.setBal : Node → Int → Node
| .nil, _ => .nil
| .node v d l r _, b => .node v d l r b

/-- The Go statement `n.Left.bal = x`. -/
def Node.setLeftBal : Node → Int → Node
| .nil, _ => .nil
| .node v d l r b0, b => .node v d (l.setBal b) r b0

/-- The Go statement `n.Right.bal = x`. -/
def Node.setRightBal : Node → Int → Node
| .nil, _ => .nil
| .node v d l r b0, b => .node v d l (r.setBal b) b0

/-- Go `rotateLeft`: promote the right child, zero both balance factors; the
parent-slot fixup is rendered by returning the new subtree root.  The fallback
arm covers the nil-right-child case on which the Go code would fault. -/
def Node.rotateLeft : Node → Node
| .node v d l (.node rv rd rl rr _) _ => .node rv rd (.node v d l rl 0) rr 0
| n => n

/-- Go `rotateRight`, mirror of `rotateLeft`. -/
def Node.rotateRight : Node → Node
| .node v d (.node lv ld ll lr _) r _ => .node lv ld ll (.node v d lr r 0) 0
| n => n

/-- Go `rotateRightLeft`: set `n.Right.Left.bal = 1`, rotate the right child
right (parent slot `n.Right` takes the result), set `n.Right.bal = 1`, then
rotate `n` left. -/
def Node.rotateRightLeft : Node → Node
| .node v d l r b =>
    let r1 := (((r.setLeftBal 1).rotateRight).setBal 1)
    (Node.node v d l r1 b).rotateLeft
| .nil => .nil

/-- Go `rotateLeftRight`: mirror of `rotateRightLeft`. -/
def Node.rotateLeftRight : Node → Node
| .node v d l r b =>
    let l1 := (((l.setRightBal (-1)).rotateLeft).setBal (-1))
    (Node.node v d l1 r b).rotateRight
| .nil => .nil

/-- Go `rebalance`: four-case dispatch on the stored balance factors; if no
case matches nothing happens. -/
def Node.rebalance (n : Node) : Node :=
  if n.bal = -2 ∧ n.Left.bal ≤ 0 then n.rotateRight
  else if n.bal = 2 ∧ 0 ≤ n.Right.bal then n.rotateLeft
  else if n.bal = -2 ∧ n.Left.bal = 1 then n.rotateLeftRight
  else if n.bal = 2 ∧ n.Right.bal = -1 then n.rotateRightLeft
  else n

/-- The tail of Go `Node.Insert` after the switch: rebalance when the stored
balance left `[-1, 1]`, then report `n.bal != 0`.  When a rotation fires it
zeroes the receiver's `bal` (every rotation ends by assigning `n.bal = 0` to
the receiver), so the report is `false` in that case; otherwise the receiver
is still the subtree root and its `bal` is read off directly. -/
def Node.finishInsert (n1 : Node) : Node × Bool :=
  if n1.bal < -1 ∨ n1.bal > 1 then
    let fired := (n1.bal = -2 ∧ n1.Left.bal ≤ 0) ∨ (n1.bal = 2 ∧ 0 ≤ n1.Right.bal) ∨
      (n1.bal = -2 ∧ n1.Left.bal = 1) ∨ (n1.bal = 2 ∧ n1.Right.bal = -1)
    (n1.rebalance, if fired then false else decide (n1.bal ≠ 0))
  else (n1, decide (n1.bal ≠ 0))

/-- Go `Node.Insert` (parent-pointer variant): returns the new subtree root
(standing for the parent-slot mutation) and the height-growth report. -/
def Node.Insert : Node → String → String → Node × Bool
| .nil, _, _ => (.nil, false)
| .node v d l r b, value, data =>
  if value = v then (.node v data l r b, false)
  else if value < v then
    match l with
    | .nil =>
      let b' : Int := if r = .nil then -1 else 0
      Node.finishInsert (.node v d (.node value data .nil .nil 0) r b')
    | lnode =>
      let res := lnode.Insert value data
      let b' := if res.2 then b - 1 else b
      Node.finishInsert (.node v d res.1 r b')
  else
    match r with
    | .nil =>
      let b' : Int := if l = .nil then 1 else 0
      Node.finishInsert (.node v d l (.node value data .nil .nil 0) b')
    | rnode =>
      let res := rnode.Insert value data
      let b' := if res.2 then b + 1 else b
      Node.finishInsert (.node v d l res.1 b')

/-- Go `Node.Find` of `balancedtree.go`. -/
def Node.Find : Node → String → String × Bool
| .nil, _ => ("", false)
| .node v d l r _, s =>
  if s = v then (d, true)
  else if s < v then l.Find s
  else r.Find s

/-- The `Tree` struct of `balancedtree.go`. -/
structure Tree where
  Root : Node

/-- Go `Tree.Insert`: seed the root directly on an empty tree; otherwise run
the node-level insert under a fake parent and fetch the possibly-rotated root
back from the fake parent's child slot. -/
def Tree.Insert (t : Tree) (value data : String) : Tree :=
  match t.Root with
  | .nil => ⟨.node value data .nil .nil 0⟩
  | root => ⟨(root.Insert value data).1⟩

/-- Go `Tree.Find` of `balancedtree.go`. -/
def Tree.Find (t : Tree) (s : String) : String × Bool :=
  match t.Root with
  | .nil => ("", false)
  | root => root.Find s

/-- Go `Tree.Traverse` of `balancedtree.go`, embedded exactly like the generic
variant's traversal. -/
def Tree.Traverse {S : Type} (t : Tree) : Node → (Node → S → S) → S → S
| .nil, _, s => s
| .node v d l r b, f, s =>
    let s1 := t.Traverse l f s
    let s2 := f (.node v d l r b) s1
    t.Traverse r f s2

/-- Inserting a list of key/data pairs, in order, into an initially empty
parent-pointer-variant tree. -/
def build (ops : List (String × String)) : Tree :=
  ops.foldl (fun t p => t.Insert p.1 p.2) ⟨Node.nil⟩

/-- Specification-side: in-order list of keys. -/
def Node.keys : Node → List String
| .nil => []
| .node v _ l r _ => l.keys ++ v :: r.keys

/-- Specification-side: in-order list of key/data pairs. -/
def Node.pairs : Node → List (String × String)
| .nil => []
| .node v d l r _ => l.pairs ++ (v, d) :: r.pairs

/-- Specification-side: in-order list of the (sub)nodes themselves. -/
def Node.inorderNodes : Node → List Node
| .nil => []
| .node v d l r b => Node.inorderNodes l ++ Node.node v d l r b :: Node.inorderNodes r

/-- The binary-search-tree invariant for the parent-pointer variant. -/
def Node.bst : Node → Bool
| .nil => true
| .node v _ l r _ =>
    l.keys.all (fun x => decide (x < v)) && r.keys.all (fun x => decide (v < x)) &&
    l.bst && r.bst

/-- The single-key list of the node handed to a traversal visitor. -/
def Node.keyList : Node → List String
| .nil => []
| .node v _ _ _ _ => [v]

/-- The key sequence a traversal starting at the root shows its visitor. -/
def Tree.traverseKeys (t : Tree) : List String :=
  t.Traverse t.Root (fun nd acc => acc ++ nd.keyList) []

end BVar

/-- The canonical map semantics both variants implement: insertion into an
in-order (sorted) association list, overwriting on an equal key. -/
def insertPairs {V D : Type} [LinearOrder V] : List (V × D) → V → D → List (V × D)
| [], v, d => [(v, d)]
| (k, e) :: rest, v, d =>
  if v = k then (k, d) :: rest
  else if v < k then (v, d) :: (k, e) :: rest
  else (k, e) :: insertPairs rest v d

/-- Sample nodes exercising each rebalance dispatch case (generic variant). -/
def gSampleLL : Generic.Node Int Int :=
  .node 2 0 (.node 1 0 (.node 0 0 .nil .nil 1) .nil 2) .nil 3

def gSampleRR : Generic.Node Int Int :=
  .node 0 0 .nil (.node 1 0 .nil (.node 2 0 .nil .nil 1) 2) 3

def gSampleLR : Generic.Node Int Int :=
  .node 2 0 (.node 0 0 .nil (.node 1 0 .nil .nil 1) 2) .nil 3

def gSampleRL : Generic.Node Int Int :=
  .node 0 0 .nil (.node 2 0 (.node 1 0 .nil .nil 1) .nil 2) 3

def gSampleOk : Generic.Node Int Int := .node 1 0 .nil .nil 1

/-- Sample nodes exercising each rebalance dispatch case (parent-pointer
variant). -/
def bSampleLL : BVar.Node :=
  .node "c" "" (.node "b" "" (.node "a" "" .nil .nil 0) .nil (-1)) .nil (-2)

def bSampleRR : BVar.Node :=
  .node "a" "" .nil (.node "b" "" .nil (.node "c" "" .nil .nil 0) 1) 2

def bSampleLR : BVar.Node :=
  .node "c" "" (.node "a" "" .nil (.node "b" "" .nil .nil 0) 1) .nil (-2)

def bSampleRL : BVar.Node :=
  .node "a" "" .nil (.node "c" "" (.node "b" "" .nil .nil 0) .nil (-1)) 2

def bSampleOk : BVar.Node := .node "a" "" .nil .nil 0


namespace Generic

variable {V D : Type} [LinearOrder V]

@[simp]
lemma Height_nil : (Node.nil : Node V D).Height = 0 := rfl

@[simp]
lemma Height_node (v : V) (d : D) (l r : Node V D) (h : Int) :
    (Node.node v d l r h).Height = h := rfl

@[simp]
lemma Left_node (v : V) (d : D) (l r : Node V D) (h : Int) :
    (Node.node v d l r h).Left = l := rfl

@[simp]
lemma Right_node (v : V) (d : D) (l r : Node V D) (h : Int) :
    (Node.node v d l r h).Right = r := rfl

@[simp]
lemma Bal_node (v : V) (d : D) (l r : Node V D) (h : Int) :
    (Node.node v d l r h).Bal = r.Height - l.Height := rfl

@[simp]
lemma realHeight_nil : (Node.nil : Node V D).realHeight = 0 := rfl

@[simp]
lemma realHeight_node (v : V) (d : D) (l r : Node V D) (h : Int) :
    (Node.node v d l r h).realHeight = max l.realHeight r.realHeight + 1 := rfl

@[simp]
lemma heightsOk_nil : (Node.nil : Node V D).heightsOk = true := rfl

@[simp]
lemma heightsOk_node (v : V) (d : D) (l r : Node V D) (h : Int) :
    (Node.node v d l r h).heightsOk = true ↔
      l.heightsOk = true ∧ r.heightsOk = true ∧ h = max l.realHeight r.realHeight + 1 := by
  simp [Node.heightsOk, and_assoc]

@[simp]
lemma balanced_nil : (Node.nil : Node V D).balanced = true := rfl

@[simp]
lemma balanced_node (v : V) (d : D) (l r : Node V D) (h : Int) :
    (Node.node v d l r h).balanced = true ↔
      l.balanced = true ∧ r.balanced = true ∧
        (-1 ≤ r.realHeight - l.realHeight ∧ r.realHeight - l.realHeight ≤ 1) := by
  simp [Node.balanced, and_assoc]

@[simp]
lemma keys_nil : (Node.nil : Node V D).keys = [] := rfl

@[simp]
lemma keys_node (v : V) (d : D) (l r : Node V D) (h : Int) :
    (Node.node v d l r h).keys = l.keys ++ v :: r.keys := rfl

@[simp]
lemma pairs_nil : (Node.nil : Node V D).pairs = [] := rfl

@[simp]
lemma pairs_node (v : V) (d : D) (l r : Node V D) (h : Int) :
    (Node.node v d l r h).pairs = l.pairs ++ (v, d) :: r.pairs := rfl

@[simp]
lemma bst_nil : (Node.nil : Node V D).bst = true := rfl

@[simp]
lemma bst_node (v : V) (d : D) (l r : Node V D) (h : Int) :
    (Node.node v d l r h).bst = true ↔
      (∀ x ∈ l.keys, x < v) ∧ (∀ x ∈ r.keys, v < x) ∧ l.bst = true ∧ r.bst = true := by
  simp [Node.bst, and_assoc]

lemma realHeight_nonneg (n : Node V D) : 0 ≤ n.realHeight := by
  induction n with
  | nil => simp
  | node v d l r h ihl ihr => simp; omega

lemma height_eq_realHeight {n : Node V D} (h : n.heightsOk = true) :
    n.Height = n.realHeight := by
  cases n with
  | nil => rfl
  | node v d l r hh => rw [heightsOk_node] at h; simp [h.2.2]

/-- `rebalance` leaves a node whose stored balance is already in range
unchanged (that includes every node whose subtree heights are cached
correctly and whose true balance is in range). -/
lemma rebalance_of_bal_in_range {m : Node V D} (h1 : -1 ≤ m.Bal) (h2 : m.Bal ≤ 1) :
    m.rebalance = m := by
  unfold Node.rebalance
  rw [if_neg (by omega), if_neg (by omega), if_neg (by omega), if_neg (by omega)]

end Generic

namespace Generic

variable {V D : Type} [LinearOrder V]

lemma bal_in_range {n : Node V D} (hh : n.heightsOk = true) (hb : n.balanced = true) :
    -1 ≤ n.Bal ∧ n.Bal ≤ 1 := by
  cases n with
  | nil => constructor <;> norm_num [Node.Bal, Node.Left, Node.Right, Node.Height]
  | node v d l r h =>
    rw [heightsOk_node] at hh
    rw [balanced_node] at hb
    simp only [Bal_node, Left_node, Right_node,
      height_eq_realHeight hh.1, height_eq_realHeight hh.2.1]
    exact ⟨hb.2.2.1, hb.2.2.2⟩

theorem Insert_avl (value : V) (data : D) (n : Node V D) :
    n.heightsOk = true → n.balanced = true →
    (n.Insert value data).heightsOk = true ∧ (n.Insert value data).balanced = true ∧
    ((n.Insert value data).realHeight = n.realHeight ∨
     ((n.Insert value data).realHeight = n.realHeight + 1 ∧
       ((n.Insert value data).Bal ≠ 0 ∨ n = .nil))) := by
  induction n with
  | nil =>
    intro _ _
    refine ⟨?_, ?_, Or.inr ⟨?_, Or.inr rfl⟩⟩ <;>
      simp [Node.Insert, Node.Bal, Node.Left, Node.Right, Node.Height]
  | node v d l r h ihl ihr =>
    intro hh hb
    rw [heightsOk_node] at hh
    rw [balanced_node] at hb
    obtain ⟨hhl, hhr, hhe⟩ := hh
    obtain ⟨hbl, hbr, hbd⟩ := hb
    have hl0 := realHeight_nonneg l
    have hr0 := realHeight_nonneg r
    by_cases hev : v = value
    · simp only [Node.Insert, if_pos hev]
      refine ⟨?_, ?_, Or.inl (by simp)⟩
      · rw [heightsOk_node]; exact ⟨hhl, hhr, hhe⟩
      · rw [balanced_node]; exact ⟨hbl, hbr, hbd⟩
    · by_cases hlt : value < v
      · -- insert goes left
        simp only [Node.Insert, if_neg hev, if_pos hlt]
        obtain ⟨hh', hb', hdich⟩ := ihl hhl hbl
        revert hh' hb' hdich
        generalize l.Insert value data = l'
        intro hh' hb' hdich
        have hl'0 := realHeight_nonneg l'
        have hLh : l'.Height = l'.realHeight := height_eq_realHeight hh'
        have hRh : r.Height = r.realHeight := height_eq_realHeight hhr
        rcases hdich with hsame | ⟨hgrow, hbal'⟩
        · -- height unchanged: no rotation
          have hreb : (Node.node v d l' r (max l'.Height r.Height + 1)).rebalance
              = Node.node v d l' r (max l'.Height r.Height + 1) := by
            apply rebalance_of_bal_in_range <;>
              simp only [Bal_node, hLh, hRh] <;> omega
          rw [hreb]
          refine ⟨?_, ?_, Or.inl ?_⟩
          · rw [heightsOk_node]; exact ⟨hh', hhr, by rw [hLh, hRh]⟩
          · rw [balanced_node]; exact ⟨hb', hbr, by omega⟩
          · simp only [realHeight_node]; omega
        · -- height grew by one
          by_cases hneg : r.realHeight - l'.realHeight < -1
          · -- left-left or left-right imbalance
            have hB2 : r.realHeight - l'.realHeight = -2 := by omega
            have hlno : l ≠ Node.nil := by
              intro he; subst he; simp only [realHeight_nil] at hgrow; omega
            have hbne : l'.Bal ≠ 0 := hbal'.resolve_right hlno
            cases l' with
            | nil => exfalso; simp only [realHeight_nil] at hgrow; omega
            | node lv ld ll lr lh =>
              rw [heightsOk_node] at hh'
              rw [balanced_node] at hb'
              obtain ⟨hhll, hhlr, hhle⟩ := hh'
              obtain ⟨hbll, hblr, hbld⟩ := hb'
              have hA0 := realHeight_nonneg ll
              have hB0 := realHeight_nonneg lr
              have hBalL : (Node.node lv ld ll lr lh).Bal = lr.realHeight - ll.realHeight := by
                simp only [Bal_node, height_eq_realHeight hhll, height_eq_realHeight hhlr]
              simp only [realHeight_node] at hgrow hB2 ⊢
              rw [hBalL] at hbne
              rcases (by omega : lr.realHeight - ll.realHeight = -1 ∨
                  lr.realHeight - ll.realHeight = 1) with hLL | hLR
              · -- single right rotation
                have hreb : (Node.node v d (Node.node lv ld ll lr lh) r
                    (max (Node.node lv ld ll lr lh).Height r.Height + 1)).rebalance
                    = (Node.node v d (Node.node lv ld ll lr lh) r
                    (max (Node.node lv ld ll lr lh).Height r.Height + 1)).rotateRight := by
                  unfold Node.rebalance
                  rw [if_pos]
                  constructor
                  · simp only [Bal_node, hLh, hRh, realHeight_node]
                    omega
                  · simpa only [Left_node, hBalL] using hLL
                rw [hreb]
                have hllh := height_eq_realHeight hhll
                have hlrh := height_eq_realHeight hhlr
                simp only [Node.rotateRight, Height_node, hllh, hlrh, hRh,
                  realHeight_node, heightsOk_node, balanced_node, Bal_node]
                refine ⟨⟨hhll, ⟨hhlr, hhr, by first | trivial | omega⟩, by first | trivial | omega⟩,
                  ⟨hbll, ⟨hblr, hbr, by omega⟩, by omega⟩, Or.inl (by omega)⟩
              · -- double rotation: rotate the left child left, then this node right
                cases lr with
                | nil => exfalso; simp only [realHeight_nil] at hLR; omega
                | node mv md ml mr mh =>
                  rw [heightsOk_node] at hhlr
                  rw [balanced_node] at hblr
                  obtain ⟨hhml, hhmr, hhme⟩ := hhlr
                  obtain ⟨hbml, hbmr, hbmd⟩ := hblr
                  have hP0 := realHeight_nonneg ml
                  have hQ0 := realHeight_nonneg mr
                  have hmlh := height_eq_realHeight hhml
                  have hmrh := height_eq_realHeight hhmr
                  have hllh := height_eq_realHeight hhll
                  simp only [realHeight_node] at hLR hbne hBalL hgrow hB2 ⊢
                  have hreb : (Node.node v d (Node.node lv ld ll (Node.node mv md ml mr mh) lh) r
                      (max (Node.node lv ld ll (Node.node mv md ml mr mh) lh).Height r.Height
                        + 1)).rebalance
                      = (Node.node v d (Node.node lv ld ll (Node.node mv md ml mr mh) lh) r
                      (max (Node.node lv ld ll (Node.node mv md ml mr mh) lh).Height r.Height
                        + 1)).rotateLeftRight := by
                    unfold Node.rebalance
                    rw [if_neg, if_neg, if_pos]
                    · exact ⟨by simp only [Bal_node, hLh, hRh, realHeight_node]; omega,
                        by rw [Left_node, hBalL]; omega⟩
                    · rintro ⟨hc, -⟩
                      simp only [Bal_node, hLh, hRh, realHeight_node] at hc
                      omega
                    · rintro ⟨-, hc⟩
                      rw [Left_node, hBalL] at hc
                      omega
                  rw [hreb]
                  simp only [Node.rotateLeftRight, Node.rotateLeft, Node.rotateRight,
                    Height_node, hllh, hmlh, hmrh, hRh, realHeight_node, heightsOk_node,
                    balanced_node, Bal_node]
                  refine ⟨⟨⟨hhll, hhml, by first | trivial | omega⟩,
                      ⟨hhmr, hhr, by first | trivial | omega⟩, by first | trivial | omega⟩,
                    ⟨⟨hbll, hbml, by omega⟩, ⟨hbmr, hbr, by omega⟩, by omega⟩,
                    Or.inl (by omega)⟩
          · -- no rotation; height may or may not have grown at this node
            have hreb : (Node.node v d l' r (max l'.Height r.Height + 1)).rebalance
                = Node.node v d l' r (max l'.Height r.Height + 1) := by
              apply rebalance_of_bal_in_range <;>
                simp only [Bal_node, hLh, hRh] <;> omega
            rw [hreb]
            refine ⟨?_, ?_, ?_⟩
            · rw [heightsOk_node]; exact ⟨hh', hhr, by rw [hLh, hRh]⟩
            · rw [balanced_node]; exact ⟨hb', hbr, by omega⟩
            · simp only [realHeight_node, Bal_node, hLh, hRh]
              by_cases hre : r.realHeight = l.realHeight + 1
              · exact Or.inl (by omega)
              · refine Or.inr ⟨by omega, Or.inl (by omega)⟩
      · -- insert goes right
        have hgt : v < value := by
          rcases lt_trichotomy value v with hvv | hvv | hvv
          · exact absurd hvv hlt
          · exact absurd hvv.symm hev
          · exact hvv
        simp only [Node.Insert, if_neg hev, if_neg hlt]
        obtain ⟨hh', hb', hdich⟩ := ihr hhr hbr
        revert hh' hb' hdich
        generalize r.Insert value data = r'
        intro hh' hb' hdich
        have hr'0 := realHeight_nonneg r'
        have hRh : r'.Height = r'.realHeight := height_eq_realHeight hh'
        have hLh : l.Height = l.realHeight := height_eq_realHeight hhl
        rcases hdich with hsame | ⟨hgrow, hbal'⟩
        · -- height unchanged: no rotation
          have hreb : (Node.node v d l r' (max l.Height r'.Height + 1)).rebalance
              = Node.node v d l r' (max l.Height r'.Height + 1) := by
            apply rebalance_of_bal_in_range <;>
              simp only [Bal_node, hLh, hRh] <;> omega
          rw [hreb]
          refine ⟨?_, ?_, Or.inl ?_⟩
          · rw [heightsOk_node]; exact ⟨hhl, hh', by rw [hLh, hRh]⟩
          · rw [balanced_node]; exact ⟨hbl, hb', by omega⟩
          · simp only [realHeight_node]; omega
        · -- height grew by one
          by_cases hpos : 1 < r'.realHeight - l.realHeight
          · -- right-right or right-left imbalance
            have hB2 : r'.realHeight - l.realHeight = 2 := by omega
            have hrno : r ≠ Node.nil := by
              intro he; subst he; simp only [realHeight_nil] at hgrow; omega
            have hbne : r'.Bal ≠ 0 := hbal'.resolve_right hrno
            cases r' with
            | nil => exfalso; simp only [realHeight_nil] at hgrow; omega
            | node rv rd rl rr2 rh2 =>
              rw [heightsOk_node] at hh'
              rw [balanced_node] at hb'
              obtain ⟨hhrl, hhrr, hhre⟩ := hh'
              obtain ⟨hbrl, hbrr, hbrd⟩ := hb'
              have hA0 := realHeight_nonneg rl
              have hB0 := realHeight_nonneg rr2
              have hBalR : (Node.node rv rd rl rr2 rh2).Bal = rr2.realHeight - rl.realHeight := by
                simp only [Bal_node, height_eq_realHeight hhrl, height_eq_realHeight hhrr]
              simp only [realHeight_node] at hgrow hB2 ⊢
              rw [hBalR] at hbne
              rcases (by omega : rr2.realHeight - rl.realHeight = 1 ∨
                  rr2.realHeight - rl.realHeight = -1) with hRR | hRL
              · -- single left rotation
                have hreb : (Node.node v d l (Node.node rv rd rl rr2 rh2)
                    (max l.Height (Node.node rv rd rl rr2 rh2).Height + 1)).rebalance
                    = (Node.node v d l (Node.node rv rd rl rr2 rh2)
                    (max l.Height (Node.node rv rd rl rr2 rh2).Height + 1)).rotateLeft := by
                  unfold Node.rebalance
                  rw [if_neg, if_pos]
                  · exact ⟨by simp only [Bal_node, hLh, hRh, realHeight_node]; omega,
                      by simpa only [Right_node, hBalR] using hRR⟩
                  · rintro ⟨hc, -⟩
                    simp only [Bal_node, hLh, hRh, realHeight_node] at hc
                    omega
                rw [hreb]
                have hrlh := height_eq_realHeight hhrl
                have hrrh := height_eq_realHeight hhrr
                simp only [Node.rotateLeft, Height_node, hrlh, hrrh, hLh,
                  realHeight_node, heightsOk_node, balanced_node, Bal_node]
                refine ⟨⟨⟨hhl, hhrl, by first | trivial | omega⟩, hhrr, by first | trivial | omega⟩,
                  ⟨⟨hbl, hbrl, by omega⟩, hbrr, by omega⟩, Or.inl (by omega)⟩
              · -- double rotation: rotate the right child right, then this node left
                cases rl with
                | nil => exfalso; simp only [realHeight_nil] at hRL; omega
                | node mv md ml mr mh =>
                  rw [heightsOk_node] at hhrl
                  rw [balanced_node] at hbrl
                  obtain ⟨hhml, hhmr, hhme⟩ := hhrl
                  obtain ⟨hbml, hbmr, hbmd⟩ := hbrl
                  have hP0 := realHeight_nonneg ml
                  have hQ0 := realHeight_nonneg mr
                  have hmlh := height_eq_realHeight hhml
                  have hmrh := height_eq_realHeight hhmr
                  have hrrh := height_eq_realHeight hhrr
                  simp only [realHeight_node] at hRL hbne hBalR hgrow hB2 ⊢
                  have hreb : (Node.node v d l (Node.node rv rd (Node.node mv md ml mr mh) rr2 rh2)
                      (max l.Height (Node.node rv rd (Node.node mv md ml mr mh) rr2 rh2).Height
                        + 1)).rebalance
                      = (Node.node v d l (Node.node rv rd (Node.node mv md ml mr mh) rr2 rh2)
                      (max l.Height (Node.node rv rd (Node.node mv md ml mr mh) rr2 rh2).Height
                        + 1)).rotateRightLeft := by
                    unfold Node.rebalance
                    rw [if_neg, if_neg, if_neg, if_pos]
                    · exact ⟨by simp only [Bal_node, hLh, hRh, realHeight_node]; omega,
                        by rw [Right_node, hBalR]; omega⟩
                    · rintro ⟨hc, -⟩
                      simp only [Bal_node, hLh, hRh, realHeight_node] at hc
                      omega
                    · rintro ⟨-, hc⟩
                      rw [Right_node, hBalR] at hc
                      omega
                    · rintro ⟨hc, -⟩
                      simp only [Bal_node, hLh, hRh, realHeight_node] at hc
                      omega
                  rw [hreb]
                  simp only [Node.rotateRightLeft, Node.rotateRight, Node.rotateLeft,
                    Height_node, hrrh, hmlh, hmrh, hLh, realHeight_node, heightsOk_node,
                    balanced_node, Bal_node]
                  refine ⟨⟨⟨hhl, hhml, by first | trivial | omega⟩,
                      ⟨hhmr, hhrr, by first | trivial | omega⟩, by first | trivial | omega⟩,
                    ⟨⟨hbl, hbml, by omega⟩, ⟨hbmr, hbrr, by omega⟩, by omega⟩,
                    Or.inl (by omega)⟩
          · -- no rotation; height may or may not have grown at this node
            have hreb : (Node.node v d l r' (max l.Height r'.Height + 1)).rebalance
                = Node.node v d l r' (max l.Height r'.Height + 1) := by
              apply rebalance_of_bal_in_range <;>
                simp only [Bal_node, hLh, hRh] <;> omega
            rw [hreb]
            refine ⟨?_, ?_, ?_⟩
            · rw [heightsOk_node]; exact ⟨hhl, hh', by rw [hLh, hRh]⟩
            · rw [balanced_node]; exact ⟨hbl, hb', by omega⟩
            · simp only [realHeight_node, Bal_node, hLh, hRh]
              by_cases hre : l.realHeight = r.realHeight + 1
              · exact Or.inl (by omega)
              · refine Or.inr ⟨by omega, Or.inl (by omega)⟩

end Generic
namespace Generic

variable {V D : Type} [LinearOrder V]

/-- One `Tree.Insert` on a handle whose root is a correct AVL tree: the
defensive root recheck is not taken, and the invariants persist. -/
lemma Tree_Insert_root (t : Tree V D) (value : V) (data : D)
    (hh : t.Root.heightsOk = true) (hb : t.Root.balanced = true) :
    t.Insert value data = ⟨t.Root.Insert value data⟩ ∧
    (t.Insert value data).Root.heightsOk = true ∧
    (t.Insert value data).Root.balanced = true := by
  obtain ⟨h1, h2, _⟩ := Insert_avl value data t.Root hh hb
  have hbal := bal_in_range h1 h2
  have heq : t.Insert value data = ⟨t.Root.Insert value data⟩ := by
    unfold Tree.Insert
    rw [if_neg (by dsimp only; omega)]
  exact ⟨heq, by rw [heq]; exact h1, by rw [heq]; exact h2⟩

lemma foldl_Insert_inv (ops : List (V × D)) : ∀ (t : Tree V D),
    t.Root.heightsOk = true → t.Root.balanced = true →
    (ops.foldl (fun t p => t.Insert p.1 p.2) t).Root.heightsOk = true ∧
    (ops.foldl (fun t p => t.Insert p.1 p.2) t).Root.balanced = true := by
  induction ops with
  | nil => intro t hh hb; exact ⟨hh, hb⟩
  | cons p rest ih =>
    intro t hh hb
    obtain ⟨-, hh', hb'⟩ := Tree_Insert_root t p.1 p.2 hh hb
    exact ih _ hh' hb'

lemma build_inv (ops : List (V × D)) :
    (build ops).Root.heightsOk = true ∧ (build ops).Root.balanced = true :=
  foldl_Insert_inv ops ⟨Node.nil⟩ rfl rfl

end Generic

/-- C1: starting from an empty tree, after any finite sequence of
`Tree.Insert` operations completes, every node of the resulting tree
satisfies the AVL invariant: the true heights of its right and left subtrees
differ by at most one. -/
theorem claim_C1_avl_invariant {V D : Type} [LinearOrder V] (ops : List (V × D)) :
    (Generic.build ops).Root.balanced = true :=
  (Generic.build_inv ops).2

/-- C7: if a tree satisfies the AVL invariant (cached heights correct,
every node balanced), then after the node-level insert the new root's balance
factor is within `{-1, 0, 1}`, so the defensive recheck in `Tree.Insert`
never takes its rebalance branch: the result is exactly the reassigned root. -/
theorem claim_C7_root_recheck_noop {V D : Type} [LinearOrder V]
    (t : Generic.Tree V D) (value : V) (data : D)
    (hh : t.Root.heightsOk = true) (hb : t.Root.balanced = true) :
    (-1 ≤ (t.Root.Insert value data).Bal ∧ (t.Root.Insert value data).Bal ≤ 1) ∧
    t.Insert value data = ⟨t.Root.Insert value data⟩ := by
  obtain ⟨h1, h2, -⟩ := Generic.Insert_avl value data t.Root hh hb
  exact ⟨Generic.bal_in_range h1 h2, (Generic.Tree_Insert_root t value data hh hb).1⟩

/-- Witness for C7 at a concrete tree: the empty `Int`-keyed tree. -/
theorem claim_C7_witness :
    (-1 ≤ ((⟨Generic.Node.nil⟩ : Generic.Tree Int Int).Root.Insert 1 2).Bal ∧
      ((⟨Generic.Node.nil⟩ : Generic.Tree Int Int).Root.Insert 1 2).Bal ≤ 1) ∧
    (⟨Generic.Node.nil⟩ : Generic.Tree Int Int).Insert 1 2
      = ⟨(⟨Generic.Node.nil⟩ : Generic.Tree Int Int).Root.Insert 1 2⟩ :=
  claim_C7_root_recheck_noop ⟨Generic.Node.nil⟩ 1 2 rfl rfl

/-- C9: inserting the integer keys 1..6 in ascending order into an empty tree
produces a tree of true height 3 (and cached height 3), not 6. -/
theorem claim_C9_height_three :
    (Generic.build [((1 : Int), (0 : Int)), (2, 0), (3, 0), (4, 0), (5, 0), (6, 0)]).Root.realHeight
        = 3 ∧
    (Generic.build [((1 : Int), (0 : Int)), (2, 0), (3, 0), (4, 0), (5, 0), (6, 0)]).Root.Height
        = 3 := by
  constructor <;> decide

namespace Generic

variable {V D : Type} [LinearOrder V]

lemma pairs_rotateLeft (n : Node V D) : n.rotateLeft.pairs = n.pairs := by
  cases n with
  | nil => rfl
  | node v d l r h =>
    cases r with
    | nil => rfl
    | node rv rd rl rr rh => simp [Node.rotateLeft]

lemma pairs_rotateRight (n : Node V D) : n.rotateRight.pairs = n.pairs := by
  cases n with
  | nil => rfl
  | node v d l r h =>
    cases l with
    | nil => rfl
    | node lv ld ll lr lh => simp [Node.rotateRight]

lemma pairs_rotateRightLeft (n : Node V D) : n.rotateRightLeft.pairs = n.pairs := by
  cases n with
  | nil => rfl
  | node v d l r h =>
    cases r with
    | nil => simp [Node.rotateRightLeft, Node.rotateRight, Node.rotateLeft]
    | node rv rd rl rr rh =>
      cases rl with
      | nil => simp [Node.rotateRightLeft, Node.rotateRight, Node.rotateLeft]
      | node sv sd sl sr sh => simp [Node.rotateRightLeft, Node.rotateRight, Node.rotateLeft]

lemma pairs_rotateLeftRight (n : Node V D) : n.rotateLeftRight.pairs = n.pairs := by
  cases n with
  | nil => rfl
  | node v d l r h =>
    cases l with
    | nil => simp [Node.rotateLeftRight, Node.rotateLeft, Node.rotateRight]
    | node lv ld ll lr lh =>
      cases lr with
      | nil => simp [Node.rotateLeftRight, Node.rotateLeft, Node.rotateRight]
      | node sv sd sl sr sh => simp [Node.rotateLeftRight, Node.rotateLeft, Node.rotateRight]

lemma pairs_rebalance (n : Node V D) : n.rebalance.pairs = n.pairs := by
  unfold Node.rebalance
  split_ifs <;>
    simp [pairs_rotateLeft, pairs_rotateRight, pairs_rotateLeftRight, pairs_rotateRightLeft]

lemma keys_eq_pairs_map (n : Node V D) : n.keys = n.pairs.map Prod.fst := by
  induction n with
  | nil => rfl
  | node v d l r h ihl ihr => simp [ihl, ihr]

lemma keys_rebalance (n : Node V D) : n.rebalance.keys = n.keys := by
  rw [keys_eq_pairs_map, keys_eq_pairs_map, pairs_rebalance]

lemma bst_iff_pairwise (n : Node V D) : n.bst = true ↔ n.keys.Pairwise (· < ·) := by
  induction n with
  | nil => simp
  | node v d l r h ihl ihr =>
    rw [bst_node, keys_node, List.pairwise_append]
    simp only [List.pairwise_cons, List.mem_cons]
    constructor
    · rintro ⟨h1, h2, hl, hr⟩
      refine ⟨ihl.mp hl, ⟨h2, ihr.mp hr⟩, ?_⟩
      rintro x hx y (rfl | hy)
      · exact h1 x hx
      · exact lt_trans (h1 x hx) (h2 y hy)
    · rintro ⟨hpl, ⟨h2, hpr⟩, hcross⟩
      exact ⟨fun x hx => hcross x hx v (Or.inl rfl), h2, ihl.mpr hpl, ihr.mpr hpr⟩

lemma bst_rebalance (n : Node V D) : n.rebalance.bst = true ↔ n.bst = true := by
  rw [bst_iff_pairwise, bst_iff_pairwise, keys_rebalance]

/-- Node-level insert on a search tree keeps the search-tree invariant and
adds exactly the inserted key to the key set. -/
lemma Insert_bst_keys (value : V) (data : D) (n : Node V D) (hb : n.bst = true) :
    (n.Insert value data).bst = true ∧
    (∀ x, x ∈ (n.Insert value data).keys ↔ x = value ∨ x ∈ n.keys) := by
  induction n with
  | nil =>
    constructor
    · simp [Node.Insert]
    · intro x; simp [Node.Insert]
  | node v d l r h ihl ihr =>
    rw [bst_node] at hb
    obtain ⟨h1, h2, hbl, hbr⟩ := hb
    by_cases hev : v = value
    · simp only [Node.Insert, if_pos hev]
      subst hev
      refine ⟨by rw [bst_node]; exact ⟨h1, h2, hbl, hbr⟩, ?_⟩
      intro x
      simp only [keys_node, List.mem_append, List.mem_cons]
      constructor
      · exact Or.inr
      · rintro (rfl | hx)
        · exact Or.inr (Or.inl rfl)
        · exact hx
    · by_cases hlt : value < v
      · simp only [Node.Insert, if_neg hev, if_pos hlt]
        obtain ⟨hbst', hmem'⟩ := ihl hbl
        constructor
        · rw [bst_rebalance, bst_node]
          refine ⟨?_, h2, hbst', hbr⟩
          intro x hx
          rcases (hmem' x).mp hx with rfl | hx'
          · exact hlt
          · exact h1 x hx'
        · intro x
          rw [keys_rebalance]
          simp only [keys_node, List.mem_append, List.mem_cons, hmem' x]
          tauto
      · have hgt : v < value := by
          rcases lt_trichotomy value v with hvv | hvv | hvv
          · exact absurd hvv hlt
          · exact absurd hvv.symm hev
          · exact hvv
        simp only [Node.Insert, if_neg hev, if_neg hlt]
        obtain ⟨hbst', hmem'⟩ := ihr hbr
        constructor
        · rw [bst_rebalance, bst_node]
          refine ⟨h1, ?_, hbl, hbst'⟩
          intro x hx
          rcases (hmem' x).mp hx with rfl | hx'
          · exact hgt
          · exact h2 x hx'
        · intro x
          rw [keys_rebalance]
          simp only [keys_node, List.mem_append, List.mem_cons, hmem' x]
          tauto

/-- Tree-level insert: search-tree invariant and key-set behaviour, with no
assumption on balance (the defensive root recheck also preserves them). -/
lemma Tree_Insert_bst_keys (t : Tree V D) (value : V) (data : D) (hb : t.Root.bst = true) :
    (t.Insert value data).Root.bst = true ∧
    (∀ x, x ∈ (t.Insert value data).Root.keys ↔ x = value ∨ x ∈ t.Root.keys) := by
  obtain ⟨hbst', hmem'⟩ := Insert_bst_keys value data t.Root hb
  unfold Tree.Insert
  by_cases hc : (t.Root.Insert value data).Bal < -1 ∨ 1 < (t.Root.Insert value data).Bal
  · rw [if_pos (by dsimp only; exact hc)]
    unfold Tree.rebalance
    cases hcase : t.Root.Insert value data with
    | nil =>
      dsimp only [hcase]
      rw [hcase] at hbst' hmem'
      exact ⟨hbst', hmem'⟩
    | node v2 d2 l2 r2 h2 =>
      dsimp only [hcase]
      rw [hcase] at hbst' hmem'
      constructor
      · rw [bst_rebalance]; exact hbst'
      · intro x; rw [keys_rebalance]; exact hmem' x
  · rw [if_neg (by dsimp only; exact hc)]
    exact ⟨hbst', hmem'⟩

lemma foldl_Insert_bst_keys (ops : List (V × D)) : ∀ (t : Tree V D),
    t.Root.bst = true →
    (ops.foldl (fun t p => t.Insert p.1 p.2) t).Root.bst = true ∧
    (∀ x, x ∈ (ops.foldl (fun t p => t.Insert p.1 p.2) t).Root.keys ↔
      x ∈ ops.map Prod.fst ∨ x ∈ t.Root.keys) := by
  induction ops with
  | nil => intro t hb; exact ⟨hb, fun x => by simp⟩
  | cons p rest ih =>
    intro t hb
    obtain ⟨hb', hmem'⟩ := Tree_Insert_bst_keys t p.1 p.2 hb
    obtain ⟨hb'', hmem''⟩ := ih _ hb'
    simp only [List.foldl_cons]
    refine ⟨hb'', ?_⟩
    intro x
    rw [hmem'' x]
    simp only [List.map_cons, List.mem_cons, hmem' x]
    tauto

lemma build_bst (ops : List (V × D)) : (build ops).Root.bst = true :=
  (foldl_Insert_bst_keys ops ⟨Node.nil⟩ rfl).1

lemma build_keys_mem (ops : List (V × D)) (x : V) :
    x ∈ (build ops).Root.keys ↔ x ∈ ops.map Prod.fst := by
  unfold build
  rw [(foldl_Insert_bst_keys ops ⟨Node.nil⟩ rfl).2 x]
  simp

end Generic

/-- C2: starting from an empty tree, after any finite sequence of
`Tree.Insert` operations completes, every node satisfies the
binary-search-tree invariant: keys in its left subtree are strictly smaller
than its key, keys in its right subtree strictly greater. -/
theorem claim_C2_bst_invariant {V D : Type} [LinearOrder V] (ops : List (V × D)) :
    (Generic.build ops).Root.bst = true :=
  Generic.build_bst ops
namespace Generic

variable {V D : Type} [LinearOrder V]

lemma Traverse_foldl {S : Type} (t : Tree V D) (n : Node V D) (f : Node V D → S → S) (s : S) :
    t.Traverse n f s = n.inorderNodes.foldl (fun acc nd => f nd acc) s := by
  induction n generalizing s with
  | nil => rfl
  | node v d l r h ihl ihr =>
    simp only [Tree.Traverse, Node.inorderNodes, List.foldl_append, List.foldl_cons, ihl, ihr]

lemma Traverse_keys_acc (t : Tree V D) (n : Node V D) : ∀ acc : List V,
    t.Traverse n (fun nd acc => acc ++ nd.keyList) acc = acc ++ n.keys := by
  induction n with
  | nil => intro acc; simp [Tree.Traverse]
  | node v d l r h ihl ihr =>
    intro acc
    simp only [Tree.Traverse, ihl, ihr]
    simp [Node.keyList]

lemma traverseKeys_eq_keys (t : Tree V D) : t.traverseKeys = t.Root.keys := by
  rw [Tree.traverseKeys, Traverse_keys_acc]
  simp

end Generic

namespace BVar

lemma bTraverse_foldl {S : Type} (t : Tree) (n : Node) (f : Node → S → S) (s : S) :
    t.Traverse n f s = n.inorderNodes.foldl (fun acc nd => f nd acc) s := by
  induction n generalizing s with
  | nil => rfl
  | node v d l r b ihl ihr =>
    simp only [Tree.Traverse, Node.inorderNodes, List.foldl_append, List.foldl_cons, ihl, ihr]

end BVar

/-- C10: `Tree.Traverse` takes its start node as an explicit argument and does
not consult the handle it is invoked on: in both variants it folds the visitor
over exactly the in-order node sequence of the subtree rooted at the given
node (one visit per node), and the same call on any other handle produces the
same result. -/
theorem claim_C10_traverse_explicit_start {V D : Type} [LinearOrder V] {S : Type}
    (t t2 : Generic.Tree V D) (n : Generic.Node V D) (f : Generic.Node V D → S → S) (s : S)
    (tb tb2 : BVar.Tree) (m : BVar.Node) (g : BVar.Node → S → S) (sb : S) :
    t.Traverse n f s = n.inorderNodes.foldl (fun acc nd => f nd acc) s ∧
    t.Traverse n f s = t2.Traverse n f s ∧
    tb.Traverse m g sb = m.inorderNodes.foldl (fun acc nd => g nd acc) sb ∧
    tb.Traverse m g sb = tb2.Traverse m g sb := by
  refine ⟨Generic.Traverse_foldl t n f s, ?_, BVar.bTraverse_foldl tb m g sb, ?_⟩
  · rw [Generic.Traverse_foldl, Generic.Traverse_foldl]
  · rw [BVar.bTraverse_foldl, BVar.bTraverse_foldl]

/-- C3: inserting any permutation of a key list into an empty tree and then
traversing in order yields a strictly ascending key sequence whose members are
exactly the inserted keys; any two insertion orders of the same keys produce
the same traversal sequence. -/
theorem claim_C3_traverse_sorted {V D : Type} [LinearOrder V] (ops1 ops2 : List (V × D))
    (hperm : List.Perm (ops1.map Prod.fst) (ops2.map Prod.fst)) :
    (Generic.build ops1).traverseKeys.Sorted (· < ·) ∧
    (∀ x, x ∈ (Generic.build ops1).traverseKeys ↔ x ∈ ops1.map Prod.fst) ∧
    (Generic.build ops1).traverseKeys = (Generic.build ops2).traverseKeys := by
  haveI : IsAntisymm V (· < ·) := ⟨fun a b h1 h2 => absurd (h1.trans h2) (lt_irrefl a)⟩
  have hs1 : (Generic.build ops1).traverseKeys.Sorted (· < ·) := by
    rw [Generic.traverseKeys_eq_keys]
    exact (Generic.bst_iff_pairwise _).mp (Generic.build_bst ops1)
  have hs2 : (Generic.build ops2).traverseKeys.Sorted (· < ·) := by
    rw [Generic.traverseKeys_eq_keys]
    exact (Generic.bst_iff_pairwise _).mp (Generic.build_bst ops2)
  have hm1 : ∀ x, x ∈ (Generic.build ops1).traverseKeys ↔ x ∈ ops1.map Prod.fst := by
    intro x
    rw [Generic.traverseKeys_eq_keys]
    exact Generic.build_keys_mem ops1 x
  have hm2 : ∀ x, x ∈ (Generic.build ops2).traverseKeys ↔ x ∈ ops2.map Prod.fst := by
    intro x
    rw [Generic.traverseKeys_eq_keys]
    exact Generic.build_keys_mem ops2 x
  refine ⟨hs1, hm1, ?_⟩
  have hnd1 : (Generic.build ops1).traverseKeys.Nodup := hs1.nodup
  have hnd2 : (Generic.build ops2).traverseKeys.Nodup := hs2.nodup
  have hfin : (Generic.build ops1).traverseKeys.toFinset
      = (Generic.build ops2).traverseKeys.toFinset := by
    ext x
    simp only [List.mem_toFinset, hm1 x, hm2 x]
    exact ⟨fun hx => hperm.mem_iff.mp hx, fun hx => hperm.mem_iff.mpr hx⟩
  exact List.eq_of_perm_of_sorted
    (List.perm_of_nodup_nodup_toFinset_eq hnd1 hnd2 hfin) hs1 hs2

/-- Witness for C3 at two concrete permutations of the key set `{1, 2, 3}`. -/
theorem claim_C3_witness :
    (Generic.build [((2 : Int), (0 : Int)), (1, 0), (3, 0)]).traverseKeys.Sorted (· < ·) ∧
    (∀ x, x ∈ (Generic.build [((2 : Int), (0 : Int)), (1, 0), (3, 0)]).traverseKeys ↔
      x ∈ ([(2, 0), (1, 0), (3, 0)] : List (Int × Int)).map Prod.fst) ∧
    (Generic.build [((2 : Int), (0 : Int)), (1, 0), (3, 0)]).traverseKeys
      = (Generic.build [((3 : Int), (0 : Int)), (2, 0), (1, 0)]).traverseKeys :=
  claim_C3_traverse_sorted [(2, 0), (1, 0), (3, 0)] [(3, 0), (2, 0), (1, 0)] (by decide)
namespace Generic

variable {V D : Type} [LinearOrder V]

lemma Find_not_mem [Inhabited D] (n : Node V D) (k : V) (h : k ∉ n.keys) :
    n.Find k = (default, false) := by
  induction n with
  | nil => rfl
  | node v d l r hh ihl ihr =>
    simp only [keys_node, List.mem_append, List.mem_cons] at h
    push_neg at h
    obtain ⟨hl, hv, hr⟩ := h
    simp only [Node.Find]
    rw [if_neg hv]
    by_cases hkv : k < v
    · rw [if_pos hkv]; exact ihl hl
    · rw [if_neg hkv]; exact ihr hr

lemma Find_mem [Inhabited D] (n : Node V D) (k : V) (dd : D) (hb : n.bst = true)
    (h : (k, dd) ∈ n.pairs) : n.Find k = (dd, true) := by
  induction n with
  | nil => simp at h
  | node v d l r hh ihl ihr =>
    rw [bst_node] at hb
    obtain ⟨h1, h2, hbl, hbr⟩ := hb
    simp only [pairs_node, List.mem_append, List.mem_cons] at h
    rcases h with hL | hEq | hR
    · have hk : k ∈ l.keys := by
        rw [keys_eq_pairs_map]
        exact List.mem_map_of_mem Prod.fst hL
      have hlt : k < v := h1 k hk
      simp only [Node.Find]
      rw [if_neg (ne_of_lt hlt), if_pos hlt]
      exact ihl hbl hL
    · rw [Prod.mk.injEq] at hEq
      obtain ⟨rfl, rfl⟩ := hEq
      simp [Node.Find]
    · have hk : k ∈ r.keys := by
        rw [keys_eq_pairs_map]
        exact List.mem_map_of_mem Prod.fst hR
      have hgt : v < k := h2 k hk
      simp only [Node.Find]
      rw [if_neg (ne_of_gt hgt), if_neg (not_lt.mpr (le_of_lt hgt))]
      exact ihr hbr hR

lemma Tree_Find_eq [Inhabited D] (t : Tree V D) (s : V) : t.Find s = t.Root.Find s := by
  obtain ⟨root⟩ := t
  cases root with
  | nil => rfl
  | node v d l r h => rfl

lemma Height_overwrite (n : Node V D) (value : V) (data : D) :
    (n.overwrite value data).Height = n.Height := by
  cases n with
  | nil => rfl
  | node v d l r h =>
    simp only [Node.overwrite]
    split_ifs <;> rfl

lemma eraseData_overwrite (n : Node V D) (value : V) (data : D) :
    (n.overwrite value data).eraseData = n.eraseData := by
  induction n with
  | nil => rfl
  | node v d l r h ihl ihr =>
    simp only [Node.overwrite]
    split_ifs <;> simp [Node.eraseData, ihl, ihr]

lemma Find_overwrite [Inhabited D] (n : Node V D) (k : V) (d' : D)
    (hb : n.bst = true) (hm : k ∈ n.keys) :
    (n.overwrite k d').Find k = (d', true) := by
  induction n with
  | nil => simp at hm
  | node v d l r h ihl ihr =>
    rw [bst_node] at hb
    obtain ⟨h1, h2, hbl, hbr⟩ := hb
    by_cases hev : v = k
    · simp only [Node.overwrite, if_pos hev]
      simp [Node.Find, hev.symm]
    · by_cases hlt : k < v
      · have hkl : k ∈ l.keys := by
          simp only [keys_node, List.mem_append, List.mem_cons] at hm
          rcases hm with hm | hm | hm
          · exact hm
          · exact absurd hm.symm hev
          · exact absurd hlt (not_lt.mpr (le_of_lt (h2 k hm)))
        simp only [Node.overwrite, if_neg hev, if_pos hlt]
        simp only [Node.Find]
        rw [if_neg (fun hc => hev hc.symm), if_pos hlt]
        exact ihl hbl hkl
      · have hgt : v < k := by
          rcases lt_trichotomy k v with hvv | hvv | hvv
          · exact absurd hvv hlt
          · exact absurd hvv.symm hev
          · exact hvv
        have hkr : k ∈ r.keys := by
          simp only [keys_node, List.mem_append, List.mem_cons] at hm
          rcases hm with hm | hm | hm
          · exact absurd (h1 k hm) (not_lt.mpr (le_of_lt hgt))
          · exact absurd hm.symm hev
          · exact hm
        simp only [Node.overwrite, if_neg hev, if_neg hlt]
        simp only [Node.Find]
        rw [if_neg (fun hc => hev hc.symm), if_neg hlt]
        exact ihr hbr hkr

/-- Inserting a key that is already present in a well-formed AVL search tree
is exactly the structural data overwrite: no rotation, no height change. -/
lemma Insert_of_mem_eq_overwrite (n : Node V D) (value : V) (data : D)
    (hb : n.bst = true) (hh : n.heightsOk = true) (hba : n.balanced = true)
    (hm : value ∈ n.keys) :
    n.Insert value data = n.overwrite value data := by
  induction n with
  | nil => simp at hm
  | node v d l r h ihl ihr =>
    rw [bst_node] at hb
    rw [heightsOk_node] at hh
    rw [balanced_node] at hba
    obtain ⟨h1, h2, hbl, hbr⟩ := hb
    obtain ⟨hhl, hhr, hhe⟩ := hh
    obtain ⟨hbal, hbar, hbad⟩ := hba
    by_cases hev : v = value
    · simp only [Node.Insert, Node.overwrite, if_pos hev]
    · by_cases hlt : value < v
      · have hkl : value ∈ l.keys := by
          simp only [keys_node, List.mem_append, List.mem_cons] at hm
          rcases hm with hm | hm | hm
          · exact hm
          · exact absurd hm.symm hev
          · exact absurd hlt (not_lt.mpr (le_of_lt (h2 value hm)))
        simp only [Node.Insert, Node.overwrite, if_neg hev, if_pos hlt]
        rw [ihl hbl hhl hbal hkl]
        have hsto : max (l.overwrite value data).Height r.Height + 1 = h := by
          rw [Height_overwrite, height_eq_realHeight hhl, height_eq_realHeight hhr]
          omega
        rw [hsto]
        apply rebalance_of_bal_in_range <;>
          simp only [Bal_node, Height_overwrite, height_eq_realHeight hhl,
            height_eq_realHeight hhr] <;> omega
      · have hgt : v < value := by
          rcases lt_trichotomy value v with hvv | hvv | hvv
          · exact absurd hvv hlt
          · exact absurd hvv.symm hev
          · exact hvv
        have hkr : value ∈ r.keys := by
          simp only [keys_node, List.mem_append, List.mem_cons] at hm
          rcases hm with hm | hm | hm
          · exact absurd (h1 value hm) (not_lt.mpr (le_of_lt hgt))
          · exact absurd hm.symm hev
          · exact hm
        simp only [Node.Insert, Node.overwrite, if_neg hev, if_neg hlt]
        rw [ihr hbr hhr hbar hkr]
        have hsto : max l.Height (r.overwrite value data).Height + 1 = h := by
          rw [Height_overwrite, height_eq_realHeight hhl, height_eq_realHeight hhr]
          omega
        rw [hsto]
        apply rebalance_of_bal_in_range <;>
          simp only [Bal_node, Height_overwrite, height_eq_realHeight hhl,
            height_eq_realHeight hhr] <;> omega

end Generic

/-- C6: `find` is total and never faults.  On an empty tree or an absent key
it returns the zero value of the data type paired with `false`; on a present
key (in a search tree) it returns the associated data paired with `true`. -/
theorem claim_C6_find_total {V D : Type} [LinearOrder V] [Inhabited D]
    (t : Generic.Tree V D) (k : V) :
    (k ∉ t.Root.keys → t.Find k = (default, false)) ∧
    (t.Root.bst = true → ∀ dd, (k, dd) ∈ t.Root.pairs → t.Find k = (dd, true)) := by
  constructor
  · intro h
    rw [Generic.Tree_Find_eq]
    exact Generic.Find_not_mem t.Root k h
  · intro hb dd h
    rw [Generic.Tree_Find_eq]
    exact Generic.Find_mem t.Root k dd hb h

/-- Witness for C6 at the concrete tree built from `(1, 10), (2, 20)`:
an absent key yields `(default, false)`, a present key its data. -/
theorem claim_C6_witness :
    (Generic.build [((1 : Int), (10 : Int)), (2, 20)]).Find 3 = (default, false) ∧
    (Generic.build [((1 : Int), (10 : Int)), (2, 20)]).Find 1 = (10, true) := by
  constructor
  · exact (claim_C6_find_total (Generic.build [(1, 10), (2, 20)]) 3).1 (by decide)
  · exact (claim_C6_find_total (Generic.build [(1, 10), (2, 20)]) 1).2 (by decide) 10 (by decide)

/-- C5: inserting a key that is already present in a well-formed AVL search
tree overwrites only the stored data: the shape, every key, every cached
height and every child link are unchanged (witnessed by `eraseData`-equality,
which erases nothing but the data payloads), and a subsequent `Find` of that
key returns the new data with `true`. -/
theorem claim_C5_duplicate_insert {V D : Type} [LinearOrder V] [Inhabited D]
    (n : Generic.Node V D) (k : V) (d' : D)
    (hb : n.bst = true) (hh : n.heightsOk = true) (hba : n.balanced = true)
    (hm : k ∈ n.keys) :
    (n.Insert k d').eraseData = n.eraseData ∧ (n.Insert k d').Find k = (d', true) := by
  rw [Generic.Insert_of_mem_eq_overwrite n k d' hb hh hba hm]
  exact ⟨Generic.eraseData_overwrite n k d', Generic.Find_overwrite n k d' hb hm⟩

/-- Witness for C5 on the concrete tree built from `(1, 10), (2, 20)`,
re-inserting key 1 with data 99. -/
theorem claim_C5_witness :
    ((Generic.build [((1 : Int), (10 : Int)), (2, 20)]).Root.Insert 1 99).eraseData
      = (Generic.build [((1 : Int), (10 : Int)), (2, 20)]).Root.eraseData ∧
    ((Generic.build [((1 : Int), (10 : Int)), (2, 20)]).Root.Insert 1 99).Find 1 = (99, true) :=
  claim_C5_duplicate_insert (Generic.build [(1, 10), (2, 20)]).Root 1 99
    (by decide) (by decide) (by decide) (by decide)
/-- C4: `rebalance` dispatches exactly as the table states.  In the generic
variant the out-of-range balance is `Bal = -2` (resp. `2`) and the child test
is `= -1` (resp. `= 1`); in the parent-pointer variant the child test of the
single-rotation rows is relaxed to `≤ 0` (resp. `≥ 0`).  A node whose balance
lies in `{-1, 0, 1}` is returned unchanged by both. -/
theorem claim_C4_rebalance_dispatch {V D : Type} [LinearOrder V]
    (n : Generic.Node V D) (m : BVar.Node) :
    (n.Bal = -2 → n.Left.Bal = -1 → n.rebalance = n.rotateRight) ∧
    (n.Bal = 2 → n.Right.Bal = 1 → n.rebalance = n.rotateLeft) ∧
    (n.Bal = -2 → n.Left.Bal = 1 → n.rebalance = n.rotateLeftRight) ∧
    (n.Bal = 2 → n.Right.Bal = -1 → n.rebalance = n.rotateRightLeft) ∧
    (-1 ≤ n.Bal → n.Bal ≤ 1 → n.rebalance = n) ∧
    (m.bal = -2 → m.Left.bal ≤ 0 → m.rebalance = m.rotateRight) ∧
    (m.bal = 2 → 0 ≤ m.Right.bal → m.rebalance = m.rotateLeft) ∧
    (m.bal = -2 → m.Left.bal = 1 → m.rebalance = m.rotateLeftRight) ∧
    (m.bal = 2 → m.Right.bal = -1 → m.rebalance = m.rotateRightLeft) ∧
    (-1 ≤ m.bal → m.bal ≤ 1 → m.rebalance = m) := by
  refine ⟨?_, ?_, ?_, ?_, ?_, ?_, ?_, ?_, ?_, ?_⟩
  · intro h1 h2
    unfold Generic.Node.rebalance
    rw [if_pos ⟨by omega, h2⟩]
  · intro h1 h2
    unfold Generic.Node.rebalance
    rw [if_neg (by omega), if_pos ⟨by omega, h2⟩]
  · intro h1 h2
    unfold Generic.Node.rebalance
    rw [if_neg (by omega), if_neg (by omega), if_pos ⟨by omega, h2⟩]
  · intro h1 h2
    unfold Generic.Node.rebalance
    rw [if_neg (by omega), if_neg (by omega), if_neg (by omega), if_pos ⟨by omega, h2⟩]
  · intro h1 h2
    exact Generic.rebalance_of_bal_in_range h1 h2
  · intro h1 h2
    unfold BVar.Node.rebalance
    rw [if_pos ⟨h1, h2⟩]
  · intro h1 h2
    unfold BVar.Node.rebalance
    rw [if_neg (by omega), if_pos ⟨h1, h2⟩]
  · intro h1 h2
    unfold BVar.Node.rebalance
    rw [if_neg (by omega), if_neg (by omega), if_pos ⟨h1, h2⟩]
  · intro h1 h2
    unfold BVar.Node.rebalance
    rw [if_neg (by omega), if_neg (by omega), if_neg (by omega), if_pos ⟨h1, h2⟩]
  · intro h1 h2
    unfold BVar.Node.rebalance
    rw [if_neg (by omega), if_neg (by omega), if_neg (by omega), if_neg (by omega)]

/-- Witness for C4: each of the ten dispatch rows applied at a concrete node
of the matching shape. -/
theorem claim_C4_witness :
    gSampleLL.rebalance = gSampleLL.rotateRight ∧
    gSampleRR.rebalance = gSampleRR.rotateLeft ∧
    gSampleLR.rebalance = gSampleLR.rotateLeftRight ∧
    gSampleRL.rebalance = gSampleRL.rotateRightLeft ∧
    gSampleOk.rebalance = gSampleOk ∧
    bSampleLL.rebalance = bSampleLL.rotateRight ∧
    bSampleRR.rebalance = bSampleRR.rotateLeft ∧
    bSampleLR.rebalance = bSampleLR.rotateLeftRight ∧
    bSampleRL.rebalance = bSampleRL.rotateRightLeft ∧
    bSampleOk.rebalance = bSampleOk :=
  ⟨(claim_C4_rebalance_dispatch gSampleLL bSampleLL).1 (by decide) (by decide),
   (claim_C4_rebalance_dispatch gSampleRR bSampleLL).2.1 (by decide) (by decide),
   (claim_C4_rebalance_dispatch gSampleLR bSampleLL).2.2.1 (by decide) (by decide),
   (claim_C4_rebalance_dispatch gSampleRL bSampleLL).2.2.2.1 (by decide) (by decide),
   (claim_C4_rebalance_dispatch gSampleOk bSampleLL).2.2.2.2.1 (by decide) (by decide),
   (claim_C4_rebalance_dispatch gSampleOk bSampleLL).2.2.2.2.2.1 (by decide) (by decide),
   (claim_C4_rebalance_dispatch gSampleOk bSampleRR).2.2.2.2.2.2.1 (by decide) (by decide),
   (claim_C4_rebalance_dispatch gSampleOk bSampleLR).2.2.2.2.2.2.2.1 (by decide) (by decide),
   (claim_C4_rebalance_dispatch gSampleOk bSampleRL).2.2.2.2.2.2.2.2.1 (by decide) (by decide),
   (claim_C4_rebalance_dispatch gSampleOk bSampleOk).2.2.2.2.2.2.2.2.2 (by decide) (by decide)⟩
namespace Generic

variable {V D : Type} [LinearOrder V]

lemma insertPairs_append_left (A B : List (V × D)) (v : V) (d : D) (k : V) (e : D)
    (hvk : v < k) :
    insertPairs (A ++ (k, e) :: B) v d = insertPairs A v d ++ (k, e) :: B := by
  induction A with
  | nil =>
    simp only [List.nil_append, insertPairs]
    rw [if_neg (ne_of_lt hvk), if_pos hvk]
    rfl
  | cons p A' ih =>
    obtain ⟨a, b⟩ := p
    simp only [List.cons_append, insertPairs]
    split_ifs <;> simp [ih]

lemma insertPairs_append_right (A B : List (V × D)) (v : V) (d : D) (k : V) (e : D)
    (hA : ∀ p ∈ A, p.1 < v) (hkv : k < v) :
    insertPairs (A ++ (k, e) :: B) v d = A ++ (k, e) :: insertPairs B v d := by
  induction A with
  | nil =>
    simp only [List.nil_append, insertPairs]
    rw [if_neg (ne_of_gt hkv), if_neg (not_lt.mpr (le_of_lt hkv))]
  | cons p A' ih =>
    obtain ⟨a, b⟩ := p
    have ha : a < v := hA (a, b) (List.mem_cons_self _ _)
    simp only [List.cons_append, insertPairs]
    rw [if_neg (ne_of_gt ha), if_neg (not_lt.mpr (le_of_lt ha))]
    simp only [List.append_eq]
    rw [ih (fun p hp => hA p (List.mem_cons_of_mem _ hp))]

lemma insertPairs_append_eq (A B : List (V × D)) (v : V) (d e : D)
    (hA : ∀ p ∈ A, p.1 < v) :
    insertPairs (A ++ (v, e) :: B) v d = A ++ (v, d) :: B := by
  induction A with
  | nil =>
    simp only [List.nil_append, insertPairs]
    simp
  | cons p A' ih =>
    obtain ⟨a, b⟩ := p
    have ha : a < v := hA (a, b) (List.mem_cons_self _ _)
    simp only [List.cons_append, insertPairs]
    rw [if_neg (ne_of_gt ha), if_neg (not_lt.mpr (le_of_lt ha))]
    simp only [List.append_eq]
    rw [ih (fun p hp => hA p (List.mem_cons_of_mem _ hp))]

/-- The generic node-level insert computes exactly the canonical sorted
association-list insertion on the in-order pair sequence. -/
lemma pairs_Insert (value : V) (data : D) (n : Node V D) (hb : n.bst = true) :
    (n.Insert value data).pairs = insertPairs n.pairs value data := by
  induction n with
  | nil => rfl
  | node v d l r h ihl ihr =>
    rw [bst_node] at hb
    obtain ⟨h1, h2, hbl, hbr⟩ := hb
    have hkeysl : ∀ p ∈ l.pairs, p.1 < v := by
      intro p hp
      exact h1 p.1 (by rw [keys_eq_pairs_map]; exact List.mem_map_of_mem Prod.fst hp)
    by_cases hev : v = value
    · simp only [Node.Insert, if_pos hev, pairs_node]
      subst hev
      rw [insertPairs_append_eq _ _ _ _ _ hkeysl]
    · by_cases hlt : value < v
      · simp only [Node.Insert, if_neg hev, if_pos hlt]
        rw [pairs_rebalance, pairs_node, pairs_node, ihl hbl,
          insertPairs_append_left _ _ _ _ _ _ hlt]
      · have hgt : v < value := by
          rcases lt_trichotomy value v with hvv | hvv | hvv
          · exact absurd hvv hlt
          · exact absurd hvv.symm hev
          · exact hvv
        simp only [Node.Insert, if_neg hev, if_neg hlt]
        rw [pairs_rebalance, pairs_node, pairs_node, ihr hbr,
          insertPairs_append_right l.pairs r.pairs value data v d
            (fun p hp => lt_trans (hkeysl p hp) hgt) hgt]

/-- Tree-level version of `pairs_Insert` (the defensive root recheck also
preserves the pair sequence). -/
lemma Tree_pairs_Insert (t : Tree V D) (value : V) (data : D) (hb : t.Root.bst = true) :
    (t.Insert value data).Root.pairs = insertPairs t.Root.pairs value data := by
  unfold Tree.Insert
  by_cases hc : (t.Root.Insert value data).Bal < -1 ∨ 1 < (t.Root.Insert value data).Bal
  · rw [if_pos (by dsimp only; exact hc)]
    unfold Tree.rebalance
    cases hcase : t.Root.Insert value data with
    | nil =>
      dsimp only [hcase]
      rw [← hcase, pairs_Insert value data t.Root hb]
    | node v2 d2 l2 r2 h2 =>
      dsimp only [hcase]
      rw [pairs_rebalance, ← hcase, pairs_Insert value data t.Root hb]
  · rw [if_neg (by dsimp only; exact hc)]
    exact pairs_Insert value data t.Root hb

lemma build_pairs (ops : List (V × D)) :
    (build ops).Root.pairs = ops.foldl (fun L p => insertPairs L p.1 p.2) [] := by
  suffices hgen : ∀ (t : Tree V D), t.Root.bst = true →
      (ops.foldl (fun t p => t.Insert p.1 p.2) t).Root.pairs
        = ops.foldl (fun L p => insertPairs L p.1 p.2) t.Root.pairs by
    exact hgen ⟨Node.nil⟩ rfl
  induction ops with
  | nil => intro t hb; rfl
  | cons p rest ih =>
    intro t hb
    simp only [List.foldl_cons]
    rw [ih _ (Tree_Insert_bst_keys t p.1 p.2 hb).1, Tree_pairs_Insert t p.1 p.2 hb]

end Generic
namespace Generic

variable {V D : Type} [LinearOrder V]

lemma insertPairs_fst_mem (L : List (V × D)) (v : V) (d : D) (x : V) :
    x ∈ (insertPairs L v d).map Prod.fst ↔ x = v ∨ x ∈ L.map Prod.fst := by
  induction L with
  | nil => simp [insertPairs]
  | cons p rest ih =>
    obtain ⟨k, e⟩ := p
    by_cases hev : v = k
    · simp only [insertPairs, if_pos hev]
      subst hev
      simp only [List.map_cons, List.mem_cons]
      tauto
    · by_cases hlt : v < k
      · simp only [insertPairs, if_neg hev, if_pos hlt]
        simp only [List.map_cons, List.mem_cons]
      · simp only [insertPairs, if_neg hev, if_neg hlt]
        simp only [List.map_cons, List.mem_cons, ih]
        tauto

lemma insertPairs_fst_pairwise (L : List (V × D)) (v : V) (d : D)
    (h : (L.map Prod.fst).Pairwise (· < ·)) :
    ((insertPairs L v d).map Prod.fst).Pairwise (· < ·) := by
  induction L with
  | nil => simp [insertPairs]
  | cons p rest ih =>
    obtain ⟨k, e⟩ := p
    simp only [List.map_cons, List.pairwise_cons] at h
    obtain ⟨hk, hrest⟩ := h
    by_cases hev : v = k
    · simp only [insertPairs, if_pos hev]
      subst hev
      simp only [List.map_cons, List.pairwise_cons]
      exact ⟨hk, hrest⟩
    · by_cases hlt : v < k
      · simp only [insertPairs, if_neg hev, if_pos hlt]
        simp only [List.map_cons, List.pairwise_cons]
        refine ⟨?_, hk, hrest⟩
        intro y hy
        rcases List.mem_cons.mp hy with rfl | hy'
        · exact hlt
        · exact lt_trans hlt (hk y hy')
      · have hgt : k < v := by
          rcases lt_trichotomy v k with hvv | hvv | hvv
          · exact absurd hvv hlt
          · exact absurd hvv hev
          · exact hvv
        simp only [insertPairs, if_neg hev, if_neg hlt]
        simp only [List.map_cons, List.pairwise_cons]
        refine ⟨?_, ih hrest⟩
        intro y hy
        rcases (insertPairs_fst_mem rest v d y).mp hy with rfl | hy'
        · exact hgt
        · exact hk y hy'

end Generic
namespace BVar

@[simp]
lemma bLeft_node (v d : String) (l r : Node) (b : Int) : (Node.node v d l r b).Left = l := rfl

@[simp]
lemma bRight_node (v d : String) (l r : Node) (b : Int) : (Node.node v d l r b).Right = r := rfl

@[simp]
lemma bbal_node (v d : String) (l r : Node) (b : Int) : (Node.node v d l r b).bal = b := rfl

@[simp]
lemma bkeys_nil : (Node.nil).keys = [] := rfl

@[simp]
lemma bkeys_node (v d : String) (l r : Node) (b : Int) :
    (Node.node v d l r b).keys = l.keys ++ v :: r.keys := rfl

@[simp]
lemma bpairs_nil : (Node.nil).pairs = [] := rfl

@[simp]
lemma bpairs_node (v d : String) (l r : Node) (b : Int) :
    (Node.node v d l r b).pairs = l.pairs ++ (v, d) :: r.pairs := rfl

@[simp]
lemma bbst_nil : (Node.nil).bst = true := rfl

@[simp]
lemma bbst_node (v d : String) (l r : Node) (b : Int) :
    (Node.node v d l r b).bst = true ↔
      (∀ x ∈ l.keys, x < v) ∧ (∀ x ∈ r.keys, v < x) ∧ l.bst = true ∧ r.bst = true := by
  simp [Node.bst, and_assoc]

lemma bkeys_eq_pairs_map (n : Node) : n.keys = n.pairs.map Prod.fst := by
  induction n with
  | nil => rfl
  | node v d l r b ihl ihr => simp [ihl, ihr]

lemma bpairs_setBal (n : Node) (b : Int) : (n.setBal b).pairs = n.pairs := by
  cases n <;> rfl

lemma bpairs_setLeftBal (n : Node) (b : Int) : (n.setLeftBal b).pairs = n.pairs := by
  cases n with
  | nil => rfl
  | node v d l r b0 => simp [Node.setLeftBal, bpairs_setBal]

lemma bpairs_setRightBal (n : Node) (b : Int) : (n.setRightBal b).pairs = n.pairs := by
  cases n with
  | nil => rfl
  | node v d l r b0 => simp [Node.setRightBal, bpairs_setBal]

lemma bpairs_rotateLeft (n : Node) : n.rotateLeft.pairs = n.pairs := by
  cases n with
  | nil => rfl
  | node v d l r b =>
    cases r with
    | nil => rfl
    | node rv rd rl rr rb => simp [Node.rotateLeft]

lemma bpairs_rotateRight (n : Node) : n.rotateRight.pairs = n.pairs := by
  cases n with
  | nil => rfl
  | node v d l r b =>
    cases l with
    | nil => rfl
    | node lv ld ll lr lb => simp [Node.rotateRight]

lemma bpairs_rotateRightLeft (n : Node) : n.rotateRightLeft.pairs = n.pairs := by
  cases n with
  | nil => rfl
  | node v d l r b =>
    simp only [Node.rotateRightLeft]
    rw [bpairs_rotateLeft, bpairs_node, bpairs_setBal, bpairs_rotateRight,
      bpairs_setLeftBal, bpairs_node]

lemma bpairs_rotateLeftRight (n : Node) : n.rotateLeftRight.pairs = n.pairs := by
  cases n with
  | nil => rfl
  | node v d l r b =>
    simp only [Node.rotateLeftRight]
    rw [bpairs_rotateRight, bpairs_node, bpairs_setBal, bpairs_rotateLeft,
      bpairs_setRightBal, bpairs_node]

lemma bpairs_rebalance (n : Node) : n.rebalance.pairs = n.pairs := by
  unfold Node.rebalance
  split_ifs <;>
    simp [bpairs_rotateLeft, bpairs_rotateRight, bpairs_rotateLeftRight, bpairs_rotateRightLeft]

lemma bpairs_finishInsert (n1 : Node) : (Node.finishInsert n1).1.pairs = n1.pairs := by
  unfold Node.finishInsert
  split_ifs <;> simp [bpairs_rebalance]

lemma bbst_iff_pairwise (n : Node) : n.bst = true ↔ n.keys.Pairwise (· < ·) := by
  induction n with
  | nil => simp
  | node v d l r b ihl ihr =>
    rw [bbst_node, bkeys_node, List.pairwise_append]
    simp only [List.pairwise_cons, List.mem_cons]
    constructor
    · rintro ⟨h1, h2, hl, hr⟩
      refine ⟨ihl.mp hl, ⟨h2, ihr.mp hr⟩, ?_⟩
      rintro x hx y (rfl | hy)
      · exact h1 x hx
      · exact lt_trans (h1 x hx) (h2 y hy)
    · rintro ⟨hpl, ⟨h2, hpr⟩, hcross⟩
      exact ⟨fun x hx => hcross x hx v (Or.inl rfl), h2, ihl.mpr hpl, ihr.mpr hpr⟩

end BVar
namespace BVar

/-- The parent-pointer variant's node-level insert also computes exactly the
canonical sorted association-list insertion on the in-order pair sequence
(whatever its balance bookkeeping does, rotations permute no keys). -/
lemma bpairs_Insert (value data : String) (m : Node) : m ≠ Node.nil → m.bst = true →
    (m.Insert value data).1.pairs = insertPairs m.pairs value data := by
  induction m with
  | nil => intro hne _; exact absurd rfl hne
  | node v d l r b ihl ihr =>
    intro _ hb
    rw [bbst_node] at hb
    obtain ⟨h1, h2, hbl, hbr⟩ := hb
    have hkeysl : ∀ p ∈ l.pairs, p.1 < v := by
      intro p hp
      exact h1 p.1 (by rw [bkeys_eq_pairs_map]; exact List.mem_map_of_mem Prod.fst hp)
    rw [Node.Insert.eq_def]
    dsimp only
    by_cases hev : value = v
    · rw [if_pos hev]
      subst hev
      simp only [bpairs_node]
      rw [Generic.insertPairs_append_eq _ _ _ _ _ hkeysl]
    · rw [if_neg hev]
      by_cases hlt : value < v
      · rw [if_pos hlt]
        cases l with
        | nil =>
          rw [bpairs_finishInsert]
          simp only [bpairs_node, bpairs_nil, List.nil_append, insertPairs]
          rw [if_neg hev, if_pos hlt]
          simp
        | node lv ld ll lr lb =>
          rw [bpairs_finishInsert]
          simp only [bpairs_node]
          rw [ihl (by intro hc; exact Node.noConfusion hc) hbl]
          rw [Generic.insertPairs_append_left _ _ _ _ _ _ hlt]
          simp only [bpairs_node]
      · have hgt : v < value := by
          rcases lt_trichotomy value v with hvv | hvv | hvv
          · exact absurd hvv hlt
          · exact absurd hvv hev
          · exact hvv
        rw [if_neg hlt]
        cases r with
        | nil =>
          rw [bpairs_finishInsert]
          simp only [bpairs_node, bpairs_nil]
          rw [Generic.insertPairs_append_right l.pairs [] value data v d
            (fun p hp => lt_trans (hkeysl p hp) hgt) hgt]
          rfl
        | node rv rd rl rr rb =>
          rw [bpairs_finishInsert]
          simp only [bpairs_node]
          rw [ihr (by intro hc; exact Node.noConfusion hc) hbr]
          rw [Generic.insertPairs_append_right l.pairs _ value data v d
            (fun p hp => lt_trans (hkeysl p hp) hgt) hgt]
          simp only [bpairs_node]

lemma bbst_Insert (value data : String) (m : Node) (hne : m ≠ Node.nil) (hb : m.bst = true) :
    (m.Insert value data).1.bst = true := by
  rw [bbst_iff_pairwise, bkeys_eq_pairs_map, bpairs_Insert value data m hne hb]
  apply Generic.insertPairs_fst_pairwise
  rw [← bkeys_eq_pairs_map]
  exact (bbst_iff_pairwise m).mp hb

/-- Tree-level: pair-sequence behaviour and preservation of the search-tree
invariant for the parent-pointer variant. -/
lemma bTree_Insert_pairs_bst (t : Tree) (value data : String) (hb : t.Root.bst = true) :
    (t.Insert value data).Root.pairs = insertPairs t.Root.pairs value data ∧
    (t.Insert value data).Root.bst = true := by
  obtain ⟨root⟩ := t
  cases root with
  | nil =>
    constructor
    · rfl
    · rfl
  | node v d l r b =>
    constructor
    · exact bpairs_Insert value data _ (by intro hc; exact Node.noConfusion hc) hb
    · exact bbst_Insert value data _ (by intro hc; exact Node.noConfusion hc) hb

lemma bbuild_pairs_bst (ops : List (String × String)) :
    (build ops).Root.pairs = ops.foldl (fun L p => insertPairs L p.1 p.2) [] ∧
    (build ops).Root.bst = true := by
  suffices hgen : ∀ (t : Tree), t.Root.bst = true →
      (ops.foldl (fun t p => t.Insert p.1 p.2) t).Root.pairs
        = ops.foldl (fun L p => insertPairs L p.1 p.2) t.Root.pairs ∧
      (ops.foldl (fun t p => t.Insert p.1 p.2) t).Root.bst = true by
    exact hgen ⟨Node.nil⟩ rfl
  induction ops with
  | nil => intro t hb; exact ⟨rfl, hb⟩
  | cons p rest ih =>
    intro t hb
    obtain ⟨hp, hb'⟩ := bTree_Insert_pairs_bst t p.1 p.2 hb
    obtain ⟨hp', hb''⟩ := ih _ hb'
    simp only [List.foldl_cons]
    exact ⟨by rw [hp', hp], hb''⟩

lemma bFind_not_mem (n : Node) (k : String) (h : k ∉ n.keys) :
    n.Find k = ("", false) := by
  induction n with
  | nil => rfl
  | node v d l r b ihl ihr =>
    simp only [bkeys_node, List.mem_append, List.mem_cons] at h
    push_neg at h
    obtain ⟨hl, hv, hr⟩ := h
    simp only [Node.Find]
    rw [if_neg hv]
    by_cases hkv : k < v
    · rw [if_pos hkv]; exact ihl hl
    · rw [if_neg hkv]; exact ihr hr

lemma bFind_mem (n : Node) (k dd : String) (hb : n.bst = true)
    (h : (k, dd) ∈ n.pairs) : n.Find k = (dd, true) := by
  induction n with
  | nil => simp at h
  | node v d l r b ihl ihr =>
    rw [bbst_node] at hb
    obtain ⟨h1, h2, hbl, hbr⟩ := hb
    simp only [bpairs_node, List.mem_append, List.mem_cons] at h
    rcases h with hL | hEq | hR
    · have hk : k ∈ l.keys := by
        rw [bkeys_eq_pairs_map]
        exact List.mem_map_of_mem Prod.fst hL
      have hlt : k < v := h1 k hk
      simp only [Node.Find]
      rw [if_neg (ne_of_lt hlt), if_pos hlt]
      exact ihl hbl hL
    · rw [Prod.mk.injEq] at hEq
      obtain ⟨rfl, rfl⟩ := hEq
      simp [Node.Find]
    · have hk : k ∈ r.keys := by
        rw [bkeys_eq_pairs_map]
        exact List.mem_map_of_mem Prod.fst hR
      have hgt : v < k := h2 k hk
      simp only [Node.Find]
      rw [if_neg (ne_of_gt hgt), if_neg (not_lt.mpr (le_of_lt hgt))]
      exact ihr hbr hR

lemma bTree_Find_eq (t : Tree) (s : String) : t.Find s = t.Root.Find s := by
  obtain ⟨root⟩ := t
  cases root with
  | nil => rfl
  | node v d l r b => rfl

lemma bTraverse_keys_acc (t : Tree) (n : Node) : ∀ acc : List String,
    t.Traverse n (fun nd acc => acc ++ nd.keyList) acc = acc ++ n.keys := by
  induction n with
  | nil => intro acc; simp [Tree.Traverse]
  | node v d l r b ihl ihr =>
    intro acc
    simp only [Tree.Traverse, ihl, ihr]
    simp [Node.keyList]

lemma btraverseKeys_eq_keys (t : Tree) : t.traverseKeys = t.Root.keys := by
  rw [Tree.traverseKeys, bTraverse_keys_acc]
  simp

end BVar
/-- C8: the two source variants implement the same map.  For every insertion
sequence of string keys and values into initially empty trees, the
parent-pointer variant and the generic return-new-root variant are
observationally equivalent: `Find` returns the same (value, found) pair for
every key, and in-order traversal shows the visitor the same key sequence. -/
theorem claim_C8_variants_equivalent (ops : List (String × String)) :
    (∀ k, (BVar.build ops).Find k = (Generic.build ops).Find k) ∧
    (BVar.build ops).traverseKeys = (Generic.build ops).traverseKeys := by
  obtain ⟨hBp, hBb⟩ := BVar.bbuild_pairs_bst ops
  have hGp := Generic.build_pairs ops
  have hGb := Generic.build_bst ops
  constructor
  · intro k
    by_cases hk : k ∈ (ops.foldl (fun L p => insertPairs L p.1 p.2) []).map Prod.fst
    · obtain ⟨p, hmem, hfst⟩ := List.mem_map.mp hk
      obtain ⟨k', dd⟩ := p
      cases hfst
      rw [BVar.bTree_Find_eq, Generic.Tree_Find_eq]
      rw [BVar.bFind_mem _ k' dd hBb (by rw [hBp]; exact hmem)]
      rw [Generic.Find_mem _ k' dd hGb (by rw [hGp]; exact hmem)]
    · rw [BVar.bTree_Find_eq, Generic.Tree_Find_eq]
      rw [BVar.bFind_not_mem _ k (by rw [BVar.bkeys_eq_pairs_map, hBp]; exact hk)]
      rw [Generic.Find_not_mem _ k (by rw [Generic.keys_eq_pairs_map, hGp]; exact hk)]
      rfl
  · rw [BVar.btraverseKeys_eq_keys, Generic.traverseKeys_eq_keys,
      BVar.bkeys_eq_pairs_map, Generic.keys_eq_pairs_map, hBp, hGp]
